import Mathlib

/-!
Verification of the message-window trimming policy (the Message Window
Selector) described by the documentation notebook
docs/docs/versions/migrating_memory/conversation_buffer_window_memory.ipynb
of this repository.

The notebook demonstrates calls into the library function trim_messages
(strategy "last", a pluggable token counter, include_system, start_on, and no
partial inclusion); the implementation of trim_messages itself is not among
the provided sources, so the selector below is modelled from the words of the
specification (data model, algorithm, boundary enforcement and error
conditions of the Message Window Selector).
-/

/-- Roles a chat message can carry: system, human/user, ai/assistant, tool. -/
inductive Role where
  | system : Role
  | human : Role
  | ai : Role
  | tool : Role
deriving DecidableEq, Repr

/-- Modelled from the spec: a Message has a `role`, an opaque `content`
payload, an optional `tool_call_id` linking a tool-result message to the
tool-call that produced it, and (for ai messages) the list of tool-call ids it
issues. Immutable once created. -/
structure Message where
  role : Role
  content : String
  toolCallId : Option Nat
  toolCalls : List Nat
deriving DecidableEq, Repr

/-- Modelled from the spec: the budget-phase scan of the Message Window
Selector.  Scanning from the most recent message backward (the input list
`l` is the history reversed), accumulate messages into the result while
`counter(result) ≤ maxBudget`; stop (do not include) at the first message
from the end whose inclusion would exceed the budget.  `acc` is the suffix
accumulated so far, kept in original chronological order. -/
def growSuffix (counter : List Message → Nat) (maxBudget : Nat)
    (acc : List Message) : List Message → List Message
  | [] => acc
  | m :: rest =>
      if counter (m :: acc) ≤ maxBudget then growSuffix counter maxBudget (m :: acc) rest
      else acc

/-- Modelled from the spec: boundary enforcement.  Drop messages from the
front until the first remaining message has a role in `startOn`. -/
def dropToStart (startOn : List Role) : List Message → List Message
  | [] => []
  | m :: ms => if m.role ∈ startOn then m :: ms else dropToStart startOn ms

/-- The first non-system message of a list, if any. -/
def firstNonSystem : List Message → Option Message
  | [] => none
  | m :: ms => if m.role = Role.system then firstNonSystem ms else some m

/-- Modelled from the spec: the Message Window Selector `select` (the
implementation of the library function trim_messages with strategy "last" and
no partial inclusion is not part of the provided sources).  Scanning from the most
recent message backward, it accumulates the budget-constrained suffix; if no
non-empty suffix fits it signals an error (unsatisfiable budget); otherwise,
when `keepSystem` is set and the original first message has role system, that
message is re-inserted at the front without any budget re-check, and boundary
enforcement trims the remainder from the front until it starts on a role in
`startOn`.  The empty history yields the empty result without error. -/
def select (counter : List Message → Nat) (maxBudget : Nat) (keepSystem : Bool)
    (startOn : List Role) : List Message → Except String (List Message)
  | [] => Except.ok []
  | first :: rest =>
      let suffix := growSuffix counter maxBudget [] (List.reverse (first :: rest))
      if suffix = [] then
        Except.error "unsatisfiable budget: no non-empty suffix fits"
      else if keepSystem = true ∧ first.role = Role.system then
        Except.ok (first :: dropToStart startOn
          (if suffix.length = rest.length + 1 then suffix.tail else suffix))
      else
        Except.ok (dropToStart startOn suffix)

/-- The message-count counter used throughout the notebook
(`token_counter=len`). -/
def lenCounter : List Message → Nat := List.length

/-- A token-style additive counter in which a system message is expensive
(cost 10) and every other message costs 1. -/
def sysHeavyCounter : List Message → Nat :=
  fun l => (l.map fun m => if m.role = Role.system then 10 else 1).sum

/-- The eight-message example history of the notebook:
system, human, ai, human, ai, human, ai, human (contents abbreviated;
they are opaque payloads for the selector). -/
def exampleMessages : List Message :=
  [⟨Role.system, "m1", none, []⟩, ⟨Role.human, "m2", none, []⟩,
   ⟨Role.ai, "m3", none, []⟩, ⟨Role.human, "m4", none, []⟩,
   ⟨Role.ai, "m5", none, []⟩, ⟨Role.human, "m6", none, []⟩,
   ⟨Role.ai, "m7", none, []⟩, ⟨Role.human, "m8", none, []⟩]

/-- The result `select` produces on the notebook scenario (count-based budget
5, keep the system message, start on human). -/
def exampleResult : List Message :=
  [⟨Role.system, "m1", none, []⟩, ⟨Role.human, "m4", none, []⟩,
   ⟨Role.ai, "m5", none, []⟩, ⟨Role.human, "m6", none, []⟩,
   ⟨Role.ai, "m7", none, []⟩, ⟨Role.human, "m8", none, []⟩]

/-- The budget-phase scan always returns a suffix of the scanned history. -/
lemma growSuffix_isSuffix (c : List Message → Nat) (B : Nat) :
    ∀ (l acc : List Message), growSuffix c B acc l <:+ l.reverse ++ acc
  | [], acc => by simp [growSuffix]
  | m :: rest, acc => by
      simp only [growSuffix]
      split
      · have h := growSuffix_isSuffix c B rest (m :: acc)
        simpa [List.reverse_cons, List.append_assoc] using h
      · exact List.suffix_append _ _

/-- The budget-phase result on a history is a suffix of that history. -/
lemma growSuffix_suffix_of_hist (c : List Message → Nat) (B : Nat)
    (H : List Message) : growSuffix c B [] H.reverse <:+ H := by
  have h := growSuffix_isSuffix c B H.reverse []
  simpa using h

/-- The budget-phase result is either empty or within the budget. -/
lemma growSuffix_le (c : List Message → Nat) (B : Nat) :
    ∀ (l acc : List Message), (acc = [] ∨ c acc ≤ B) →
      (growSuffix c B acc l = [] ∨ c (growSuffix c B acc l) ≤ B)
  | [], _, h => by simpa [growSuffix] using h
  | m :: rest, acc, h => by
      simp only [growSuffix]
      split
      next hc => exact growSuffix_le c B rest (m :: acc) (Or.inr hc)
      next => exact h

/-- With a suffix-monotone counter, a history whose total cost fits the
budget is accumulated whole by the budget-phase scan. -/
lemma growSuffix_all (c : List Message → Nat) (B : Nat)
    (hmono : ∀ l₁ l₂ : List Message, l₁ <:+ l₂ → c l₁ ≤ c l₂) :
    ∀ (l acc : List Message), c (l.reverse ++ acc) ≤ B →
      growSuffix c B acc l = l.reverse ++ acc
  | [], acc, _ => by simp [growSuffix]
  | m :: rest, acc, h => by
      have hrw : (m :: rest).reverse ++ acc = rest.reverse ++ (m :: acc) := by
        simp [List.reverse_cons, List.append_assoc]
      rw [hrw] at h ⊢
      have hsub : (m :: acc) <:+ (rest.reverse ++ (m :: acc)) :=
        List.suffix_append _ _
      have hc : c (m :: acc) ≤ B := le_trans (hmono _ _ hsub) h
      simp only [growSuffix, if_pos hc]
      exact growSuffix_all c B hmono rest (m :: acc) h

/-- With a suffix-monotone counter, a history whose total cost fits the
budget is returned whole by the budget phase. -/
lemma growSuffix_full (c : List Message → Nat) (B : Nat)
    (hmono : ∀ l₁ l₂ : List Message, l₁ <:+ l₂ → c l₁ ≤ c l₂)
    (H : List Message) (h : c H ≤ B) :
    growSuffix c B [] H.reverse = H := by
  have h2 := growSuffix_all c B hmono H.reverse []
  rw [List.reverse_reverse, List.append_nil] at h2
  exact h2 h

/-- Boundary trimming returns a suffix of its input. -/
lemma dropToStart_isSuffix (so : List Role) :
    ∀ l : List Message, dropToStart so l <:+ l
  | [] => List.suffix_refl _
  | m :: ms => by
      simp only [dropToStart]
      split
      · exact List.suffix_refl _
      · exact (dropToStart_isSuffix so ms).trans (List.suffix_cons m ms)

/-- Boundary trimming yields the empty list or a list headed by an allowed
role. -/
lemma dropToStart_head (so : List Role) :
    ∀ l : List Message, dropToStart so l = [] ∨
      ∃ m t, dropToStart so l = m :: t ∧ m.role ∈ so
  | [] => Or.inl rfl
  | m :: ms => by
      simp only [dropToStart]
      split
      next hm => exact Or.inr ⟨m, ms, rfl, hm⟩
      next => exact dropToStart_head so ms

/-- If no message of the input has an allowed role, boundary trimming empties
the list. -/
lemma dropToStart_eq_nil (so : List Role) :
    ∀ l : List Message, (∀ m ∈ l, m.role ∉ so) → dropToStart so l = []
  | [], _ => rfl
  | m :: ms, h => by
      have hm : m.role ∉ so := h m (List.mem_cons_self m ms)
      simp only [dropToStart, if_neg hm]
      exact dropToStart_eq_nil so ms fun x hx => h x (List.mem_cons_of_mem m hx)

/-- Boundary trimming fixes a list already headed by an allowed role. -/
lemma dropToStart_cons_mem (so : List Role) (m : Message) (t : List Message)
    (h : m.role ∈ so) : dropToStart so (m :: t) = m :: t := by
  simp [dropToStart, h]

/-- Boundary trimming is idempotent. -/
lemma dropToStart_idem (so : List Role) (l : List Message) :
    dropToStart so (dropToStart so l) = dropToStart so l := by
  rcases dropToStart_head so l with h | ⟨m, t, h, hm⟩
  · rw [h]; rfl
  · rw [h]; exact dropToStart_cons_mem so m t hm

/-- The selector on the empty history. -/
lemma select_nil (c : List Message → Nat) (B : Nat) (ks : Bool)
    (so : List Role) : select c B ks so [] = Except.ok [] := rfl

/-- Unfolding equation of the selector on a non-empty history. -/
lemma select_cons (c : List Message → Nat) (B : Nat) (ks : Bool)
    (so : List Role) (first : Message) (rest : List Message) :
    select c B ks so (first :: rest) =
      (if growSuffix c B [] (List.reverse (first :: rest)) = [] then
        Except.error "unsatisfiable budget: no non-empty suffix fits"
      else if ks = true ∧ first.role = Role.system then
        Except.ok (first :: dropToStart so
          (if (growSuffix c B [] (List.reverse (first :: rest))).length = rest.length + 1
           then (growSuffix c B [] (List.reverse (first :: rest))).tail
           else growSuffix c B [] (List.reverse (first :: rest))))
      else
        Except.ok (dropToStart so (growSuffix c B [] (List.reverse (first :: rest))))) :=
  rfl

/-- Case analysis of a successful run of the selector on a non-empty
history: the budget phase is non-empty, and the result is either the kept
leading system message followed by the boundary-trimmed window body, or the
boundary-trimmed window itself. -/
lemma select_cons_ok (c : List Message → Nat) (B : Nat) (ks : Bool)
    (so : List Role) (first : Message) (rest res : List Message)
    (h : select c B ks so (first :: rest) = Except.ok res) :
    growSuffix c B [] (List.reverse (first :: rest)) ≠ [] ∧
      ((ks = true ∧ first.role = Role.system ∧
          ∃ body, body <:+ rest ∧
            body <:+ growSuffix c B [] (List.reverse (first :: rest)) ∧
            res = first :: dropToStart so body) ∨
        (¬(ks = true ∧ first.role = Role.system) ∧
          res = dropToStart so (growSuffix c B [] (List.reverse (first :: rest))))) := by
  rw [select_cons] at h
  split at h
  · exact absurd h (by simp)
  next hne =>
    refine ⟨hne, ?_⟩
    split at h
    next hks =>
      refine Or.inl ⟨hks.1, hks.2, ?_⟩
      have hok : res = first :: dropToStart so
          (if (growSuffix c B [] (List.reverse (first :: rest))).length = rest.length + 1
           then (growSuffix c B [] (List.reverse (first :: rest))).tail
           else growSuffix c B [] (List.reverse (first :: rest))) := by
        exact (Except.ok.injEq _ _).mp h.symm
      split at hok
      next hlen =>
        have hsfx : growSuffix c B [] (List.reverse (first :: rest)) = first :: rest := by
          refine List.IsSuffix.eq_of_length
            (growSuffix_suffix_of_hist c B (first :: rest)) ?_
          simpa using hlen
        refine ⟨rest, List.suffix_refl rest, ?_, ?_⟩
        · rw [hsfx]; exact List.suffix_cons first rest
        · rw [hok, hsfx]
          rfl
      next hlen =>
        refine ⟨growSuffix c B [] (List.reverse (first :: rest)), ?_,
          List.suffix_refl _, hok⟩
        have hsuf := growSuffix_suffix_of_hist c B (first :: rest)
        rcases List.suffix_cons_iff.mp hsuf with heq | htail
        · exact absurd (by rw [heq]; simp) hlen
        · exact htail
    next hks =>
      exact Or.inr ⟨hks, ((Except.ok.injEq _ _).mp h.symm)⟩

/-- A failing run of the selector means the budget phase was empty. -/
lemma select_cons_err (c : List Message → Nat) (B : Nat) (ks : Bool)
    (so : List Role) (first : Message) (rest : List Message)
    (hne : growSuffix c B [] (List.reverse (first :: rest)) = []) :
    select c B ks so (first :: rest) =
      Except.error "unsatisfiable budget: no non-empty suffix fits" := by
  rw [select_cons, if_pos hne]

/-- A successful selection is an order-preserving sublist of the history. -/
lemma select_sublist (c : List Message → Nat) (B : Nat) (ks : Bool)
    (so : List Role) (H res : List Message)
    (h : select c B ks so H = Except.ok res) : List.Sublist res H := by
  cases H with
  | nil =>
      have : res = [] := by simpa [select_nil] using h.symm
      simp [this]
  | cons first rest =>
      obtain ⟨_, hcase⟩ := select_cons_ok c B ks so first rest res h
      rcases hcase with ⟨_, _, body, hbr, _, hres⟩ | ⟨_, hres⟩
      · rw [hres]
        exact List.Sublist.cons₂ first
          (((dropToStart_isSuffix so body).trans hbr).sublist)
      · rw [hres]
        exact ((dropToStart_isSuffix so _).trans
          (growSuffix_suffix_of_hist c B (first :: rest))).sublist

/-- When the system role is not an allowed start role, the first non-system
message of a successful selection has an allowed role. -/
lemma firstNonSystem_select (c : List Message → Nat) (B : Nat) (ks : Bool)
    (so : List Role) (H res : List Message) (hso : Role.system ∉ so)
    (h : select c B ks so H = Except.ok res) :
    ∀ m, firstNonSystem res = some m → m.role ∈ so := by
  intro m hm
  cases H with
  | nil =>
      have : res = [] := by simpa [select_nil] using h.symm
      rw [this] at hm
      exact absurd hm (by simp [firstNonSystem])
  | cons first rest =>
      obtain ⟨_, hcase⟩ := select_cons_ok c B ks so first rest res h
      rcases hcase with ⟨_, hrole, body, _, _, hres⟩ | ⟨_, hres⟩
      · rw [hres] at hm
        rw [firstNonSystem, if_pos hrole] at hm
        rcases dropToStart_head so body with hnil | ⟨m2, t2, heq, hm2⟩
        · rw [hnil] at hm
          exact absurd hm (by simp [firstNonSystem])
        · rw [heq] at hm
          have hm2ns : m2.role ≠ Role.system := fun hc => hso (hc ▸ hm2)
          rw [firstNonSystem, if_neg hm2ns] at hm
          have : m2 = m := by simpa using hm
          exact this ▸ hm2
      · rw [hres] at hm
        rcases dropToStart_head so
            (growSuffix c B [] (List.reverse (first :: rest))) with
          hnil | ⟨m2, t2, heq, hm2⟩
        · rw [hnil] at hm
          exact absurd hm (by simp [firstNonSystem])
        · rw [heq] at hm
          have hm2ns : m2.role ≠ Role.system := fun hc => hso (hc ▸ hm2)
          rw [firstNonSystem, if_neg hm2ns] at hm
          have : m2 = m := by simpa using hm
          exact this ▸ hm2

/-- Claim C1: for every history, budget, counter and parameter choice, a
successful selection is a contiguous suffix of the history, possibly prefixed
by the original leading system message of the history; it is never a
reordering or an arbitrary subset. -/
theorem select_returns_suffix (c : List Message → Nat) (B : Nat) (ks : Bool)
    (so : List Role) (H res : List Message)
    (h : select c B ks so H = Except.ok res) :
    res <:+ H ∨
      ∃ first t, H.head? = some first ∧ first.role = Role.system ∧
        res = first :: t ∧ t <:+ H := by
  cases H with
  | nil =>
      have : res = [] := by simpa [select_nil] using h.symm
      exact Or.inl (by simp [this])
  | cons first rest =>
      obtain ⟨_, hcase⟩ := select_cons_ok c B ks so first rest res h
      rcases hcase with ⟨_, hrole, body, hbr, _, hres⟩ | ⟨_, hres⟩
      · exact Or.inr ⟨first, dropToStart so body, rfl, hrole, hres,
          ((dropToStart_isSuffix so body).trans hbr).trans
            (List.suffix_cons first rest)⟩
      · exact Or.inl (hres ▸ ((dropToStart_isSuffix so _).trans
          (growSuffix_suffix_of_hist c B (first :: rest))))

/-- Witness for claim C1 on the notebook scenario. -/
theorem select_returns_suffix_witness :
    select lenCounter 5 true [Role.human] exampleMessages =
        Except.ok exampleResult ∧
      (exampleResult <:+ exampleMessages ∨
        ∃ first t, exampleMessages.head? = some first ∧
          first.role = Role.system ∧ exampleResult = first :: t ∧
          t <:+ exampleMessages) :=
  ⟨rfl, select_returns_suffix lenCounter 5 true [Role.human] exampleMessages
    exampleResult rfl⟩

/-- Claim C2: with start_role = {human}, if a successful selection contains
any non-system message, its first non-system message has role human. -/
theorem select_starts_on_human (c : List Message → Nat) (B : Nat) (ks : Bool)
    (H res : List Message)
    (h : select c B ks [Role.human] H = Except.ok res) :
    ∀ m, firstNonSystem res = some m → m.role = Role.human := by
  intro m hm
  have := firstNonSystem_select c B ks [Role.human] H res (by simp) h m hm
  simpa using this

/-- Witness for claim C2 on the notebook scenario. -/
theorem select_starts_on_human_witness :
    select lenCounter 5 true [Role.human] exampleMessages =
        Except.ok exampleResult ∧
      ∀ m, firstNonSystem exampleResult = some m → m.role = Role.human :=
  ⟨rfl, select_starts_on_human lenCounter 5 true exampleMessages
    exampleResult rfl⟩

/-- Counterexample for claim C3: on the notebook scenario (8 messages, budget
5 with a message-count counter, start on human, keep the system message) the
selector modelled from the spec algorithm does not return a result of length
at most 5 whose first non-system message is the 6th message; since the
re-inserted system message is not budget-checked, the result has length 6 and
its first non-system message is the 4th message. -/
theorem select_scenario_counterexample :
    select lenCounter 5 true [Role.human] exampleMessages =
        Except.ok exampleResult ∧
      ¬(exampleResult.length ≤ 5 ∧
        firstNonSystem exampleResult =
          some (⟨Role.human, "m6", none, []⟩ : Message)) :=
  ⟨rfl, by decide⟩

/-- Claim C3 as amended: on the notebook scenario the selector returns the
leading system message followed by the budget-constrained window of the last
5 messages (which already starts on a human message), for a total length of 6,
the first non-system message being the 4th message of the history. -/
theorem select_scenario :
    select lenCounter 5 true [Role.human] exampleMessages =
        Except.ok exampleResult ∧
      exampleResult.length = 6 ∧
      firstNonSystem exampleResult =
        some (⟨Role.human, "m4", none, []⟩ : Message) :=
  ⟨rfl, by decide, by decide⟩

/-- The constant counter assigning cost 1 to every list, the empty list
included; it is trivially suffix-monotone. -/
def oneCounter : List Message → Nat := fun _ => 1

/-- Counterexample for claim C4: on the empty history with budget 0 and a
(monotone) counter that assigns cost 1 to the empty list, the selector
succeeds with the empty result, there is no forcibly-kept system message, and
the counter of the stripped result exceeds the budget. -/
theorem select_budget_counterexample :
    select oneCounter 0 true [Role.human] [] = Except.ok [] ∧
      ¬oneCounter [] ≤ 0 :=
  ⟨rfl, by decide⟩

/-- Claim C4 as amended: for every non-empty history and suffix-monotone
counter, a successful selection minus any forcibly-kept leading system message
costs at most the budget, with no exception needed. -/
theorem select_budget_respected (c : List Message → Nat) (B : Nat) (ks : Bool)
    (so : List Role) (H res : List Message)
    (hmono : ∀ l₁ l₂ : List Message, l₁ <:+ l₂ → c l₁ ≤ c l₂)
    (hH : H ≠ []) (h : select c B ks so H = Except.ok res) :
    ∃ core,
      (res = core ∨ ∃ first, H.head? = some first ∧
        first.role = Role.system ∧ res = first :: core) ∧
      c core ≤ B := by
  cases H with
  | nil => exact absurd rfl hH
  | cons first rest =>
      obtain ⟨hne, hcase⟩ := select_cons_ok c B ks so first rest res h
      have hsle : c (growSuffix c B [] (List.reverse (first :: rest))) ≤ B := by
        rcases growSuffix_le c B (List.reverse (first :: rest)) []
            (Or.inl rfl) with hnil | hle
        · exact absurd hnil hne
        · exact hle
      rcases hcase with ⟨_, hrole, body, _, hbs, hres⟩ | ⟨_, hres⟩
      · refine ⟨dropToStart so body, Or.inr ⟨first, rfl, hrole, hres⟩, ?_⟩
        exact le_trans (hmono _ _ ((dropToStart_isSuffix so body).trans hbs))
          hsle
      · refine ⟨res, Or.inl rfl, ?_⟩
        rw [hres]
        exact le_trans (hmono _ _ (dropToStart_isSuffix so _)) hsle

/-- Witness for amended claim C4 on the notebook scenario. -/
theorem select_budget_respected_witness :
    ∃ core,
      (exampleResult = core ∨ ∃ first, exampleMessages.head? = some first ∧
        first.role = Role.system ∧ exampleResult = first :: core) ∧
      lenCounter core ≤ 5 :=
  select_budget_respected lenCounter 5 true [Role.human] exampleMessages
    exampleResult (fun _ _ h => h.length_le) (by decide) rfl

/-- Claim C5: when the first message of the history has role system and
keep_system is requested, a successful selection carries that system message
at its front (its inclusion is not budget-checked). -/
theorem select_keeps_system (c : List Message → Nat) (B : Nat)
    (so : List Role) (H res : List Message) (first : Message)
    (hhead : H.head? = some first) (hrole : first.role = Role.system)
    (h : select c B true so H = Except.ok res) :
    res.head? = some first := by
  cases H with
  | nil => exact absurd hhead (by simp)
  | cons f rest =>
      have hf : f = first := by simpa using hhead
      subst hf
      obtain ⟨_, hcase⟩ := select_cons_ok c B true so f rest res h
      rcases hcase with ⟨_, _, body, _, _, hres⟩ | ⟨hnk, _⟩
      · rw [hres]; rfl
      · exact absurd ⟨rfl, hrole⟩ hnk

/-- Witness for claim C5 on the notebook scenario. -/
theorem select_keeps_system_witness :
    exampleResult.head? = some (⟨Role.system, "m1", none, []⟩ : Message) :=
  select_keeps_system lenCounter 5 [Role.human] exampleMessages exampleResult
    (⟨Role.system, "m1", none, []⟩ : Message) rfl rfl rfl

/-- A lone system message (as kept by the selector). -/
def sysMsg : Message := ⟨Role.system, "instructions", none, []⟩

/-- A tool-result message carrying tool-call id 7. -/
def toolMsg : Message := ⟨Role.tool, "tool result", some 7, []⟩

/-- A plain human message. -/
def humanMsg : Message := ⟨Role.human, "hello", none, []⟩

/-- Counterexample for claim C6: with the additive counter that charges 10
for a system message and 1 otherwise, budget 1, keep_system, and start on
human, the history [system, tool] selects to [system] (the system message is
re-inserted without a budget check), but selecting again from [system] fails
with the unsatisfiable-budget error, so select is not idempotent. -/
theorem select_idempotent_counterexample :
    select sysHeavyCounter 1 true [Role.human] [sysMsg, toolMsg] =
        Except.ok [sysMsg] ∧
      select sysHeavyCounter 1 true [Role.human] [sysMsg] =
        Except.error "unsatisfiable budget: no non-empty suffix fits" :=
  ⟨rfl, rfl⟩

/-- Claim C6 as amended: selection is idempotent provided the counter is
suffix-monotone, the system role is not an allowed start role, and the
returned result (any re-inserted system message included) itself fits the
budget. -/
theorem select_idempotent_amended (c : List Message → Nat) (B : Nat)
    (ks : Bool) (so : List Role) (H res : List Message)
    (hmono : ∀ l₁ l₂ : List Message, l₁ <:+ l₂ → c l₁ ≤ c l₂)
    (hso : Role.system ∉ so)
    (h : select c B ks so H = Except.ok res) (hres : c res ≤ B) :
    select c B ks so res = Except.ok res := by
  cases H with
  | nil =>
      have : res = [] := by simpa [select_nil] using h.symm
      rw [this]; rfl
  | cons first rest =>
      obtain ⟨_, hcase⟩ := select_cons_ok c B ks so first rest res h
      rcases hcase with ⟨hks, hrole, body, _, _, hresEq⟩ | ⟨_, hresEq⟩
      · subst hresEq
        have hfull : growSuffix c B []
            (List.reverse (first :: dropToStart so body)) =
            first :: dropToStart so body :=
          growSuffix_full c B hmono _ hres
        rw [select_cons, hfull, if_neg (List.cons_ne_nil _ _),
          if_pos ⟨hks, hrole⟩, if_pos (by simp), List.tail_cons,
          dropToStart_idem]
      · subst hresEq
        rcases dropToStart_head so
            (growSuffix c B [] (List.reverse (first :: rest))) with
          hnil | ⟨m2, t2, heq, hm2⟩
        · rw [hnil]; rfl
        · rw [heq] at hres ⊢
          have hfull : growSuffix c B [] (List.reverse (m2 :: t2)) =
              m2 :: t2 :=
            growSuffix_full c B hmono _ hres
          have hm2sys : ¬(ks = true ∧ m2.role = Role.system) :=
            fun hand => hso (hand.2 ▸ hm2)
          rw [select_cons, hfull, if_neg (List.cons_ne_nil _ _),
            if_neg hm2sys, dropToStart_cons_mem so m2 t2 hm2]

/-- Witness for amended claim C6: a system-plus-human history within budget
re-selects to itself. -/
theorem select_idempotent_amended_witness :
    select lenCounter 10 true [Role.human] [sysMsg, humanMsg] =
      Except.ok [sysMsg, humanMsg] :=
  select_idempotent_amended lenCounter 10 true [Role.human]
    [sysMsg, humanMsg] [sysMsg, humanMsg] (fun _ _ h => h.length_le)
    (by decide) rfl (by decide)

/-- Claim C7: on a non-empty history in which no non-empty suffix fits within
the budget (for example a single message that alone exceeds it), the selector
signals an error rather than returning an over-budget or empty result. -/
theorem select_unsatisfiable_errors (c : List Message → Nat) (B : Nat)
    (ks : Bool) (so : List Role) (H : List Message) (hH : H ≠ [])
    (hover : ∀ s : List Message, s <:+ H → s ≠ [] → B < c s) :
    ∃ e, select c B ks so H = Except.error e := by
  cases H with
  | nil => exact absurd rfl hH
  | cons first rest =>
      have hnil : growSuffix c B [] (List.reverse (first :: rest)) = [] := by
        by_contra hne
        rcases growSuffix_le c B (List.reverse (first :: rest)) []
            (Or.inl rfl) with hn | hle
        · exact hne hn
        · exact absurd hle (not_le.mpr
            (hover _ (growSuffix_suffix_of_hist c B (first :: rest)) hne))
      exact ⟨_, select_cons_err c B ks so first rest hnil⟩

/-- Witness for claim C7: a single human message with budget 0 under the
message-count counter. -/
theorem select_unsatisfiable_errors_witness :
    ∃ e, select lenCounter 0 true [Role.human] [humanMsg] =
      Except.error e :=
  select_unsatisfiable_errors lenCounter 0 true [Role.human] [humanMsg]
    (by decide) (fun s _ hne => List.length_pos.mpr hne)

/-- Claim C8: the empty history selects to the empty result without error,
and whenever boundary trimming removes every message of the
budget-constrained window (no allowed start role occurs in it), the selector
still succeeds, returning the empty sequence, or just the kept leading system
message; this degenerate outcome is not an error. -/
theorem select_degenerate_ok (c : List Message → Nat) (B : Nat) (ks : Bool)
    (so : List Role) (H : List Message) :
    select c B ks so [] = Except.ok [] ∧
      (growSuffix c B [] H.reverse ≠ [] →
        (∀ m ∈ growSuffix c B [] H.reverse, m.role ∉ so) →
        ∃ res, select c B ks so H = Except.ok res ∧
          (res = [] ∨ ∃ first, H.head? = some first ∧
            first.role = Role.system ∧ res = [first])) := by
  refine ⟨rfl, ?_⟩
  intro hne hall
  cases H with
  | nil => exact absurd rfl hne
  | cons first rest =>
      rw [select_cons, if_neg (by simpa using hne)]
      split
      next hks =>
        have hbody : dropToStart so
            (if (growSuffix c B [] (List.reverse (first :: rest))).length =
                rest.length + 1
             then (growSuffix c B [] (List.reverse (first :: rest))).tail
             else growSuffix c B [] (List.reverse (first :: rest))) = [] := by
          split
          · refine dropToStart_eq_nil so _ fun m hm => ?_
            exact hall m (List.mem_of_mem_tail hm)
          · exact dropToStart_eq_nil so _ hall
        refine ⟨[first], ?_, Or.inr ⟨first, rfl, hks.2, rfl⟩⟩
        rw [hbody]
      next =>
        refine ⟨dropToStart so (growSuffix c B [] (List.reverse (first :: rest))),
          rfl, Or.inl ?_⟩
        exact dropToStart_eq_nil so _ hall

/-- Witness for claim C8: a history of one system and one tool message with
start on human trims to just the kept system message, without error. -/
theorem select_degenerate_ok_witness :
    ∃ res, select lenCounter 5 true [Role.human] [sysMsg, toolMsg] =
        Except.ok res ∧
      (res = [] ∨ ∃ first, ([sysMsg, toolMsg] : List Message).head? = some first ∧
        first.role = Role.system ∧ res = [first]) :=
  (select_degenerate_ok lenCounter 5 true [Role.human] [sysMsg, toolMsg]).2
    (by decide) (by decide)

/-- The first message is a tool-result message produced by a tool call that
the second (ai) message issues: the pattern that must never occur in order
(result before its originating call) in a trimmed output. -/
def resultOfCall (m₁ m₂ : Message) : Prop :=
  m₁.role = Role.tool ∧ m₂.role = Role.ai ∧
    ∃ cid ∈ m₂.toolCalls, m₁.toolCallId = some cid

instance (m₁ m₂ : Message) : Decidable (resultOfCall m₁ m₂) := by
  unfold resultOfCall
  infer_instance

/-- An ai message that issues the tool call with id 7. -/
def aiCallMsg : Message := ⟨Role.ai, "calling a tool", none, [7]⟩

/-- A plain ai message with no tool calls. -/
def aiMsg : Message := ⟨Role.ai, "answer", none, []⟩

/-- A second plain human message. -/
def humanMsg2 : Message := ⟨Role.human, "question", none, []⟩

/-- A well-formed tool-calling history: system, human, ai issuing call 7,
tool result for call 7, ai answer, human follow-up. -/
def toolHistory : List Message :=
  [sysMsg, humanMsg, aiCallMsg, toolMsg, aiMsg, humanMsg2]

/-- Claim C9: on a history in which no tool-result message precedes the
tool-call message that produced it, and with the allowed start roles drawn
from {human, ai}, a successful selection never contains a tool-result message
preceding its originating tool-call message, and its first non-system message
is never a tool-result message. -/
theorem select_tool_result_order (c : List Message → Nat) (B : Nat)
    (ks : Bool) (so : List Role) (H res : List Message)
    (hwf : H.Pairwise fun a b => ¬resultOfCall a b)
    (hso : ∀ r ∈ so, r = Role.human ∨ r = Role.ai)
    (h : select c B ks so H = Except.ok res) :
    res.Pairwise (fun a b => ¬resultOfCall a b) ∧
      ∀ m, firstNonSystem res = some m → m.role ≠ Role.tool := by
  have hsys : Role.system ∉ so := by
    intro hmem
    rcases hso _ hmem with h1 | h1 <;> exact absurd h1 (by decide)
  refine ⟨hwf.sublist (select_sublist c B ks so H res h), ?_⟩
  intro m hm htool
  have hmem := firstNonSystem_select c B ks so H res hsys h m hm
  rcases hso _ hmem with h1 | h1 <;> rw [htool] at h1 <;>
    exact absurd h1 (by decide)

/-- Witness for claim C9 on the tool-calling history with budget 3. -/
theorem select_tool_result_order_witness :
    ([sysMsg, aiMsg, humanMsg2] : List Message).Pairwise
        (fun a b => ¬resultOfCall a b) ∧
      ∀ m, firstNonSystem [sysMsg, aiMsg, humanMsg2] = some m →
        m.role ≠ Role.tool :=
  select_tool_result_order lenCounter 3 true [Role.human, Role.ai]
    toolHistory [sysMsg, aiMsg, humanMsg2] (by decide) (by decide) rfl

/-- Modelled from the spec and from the notebook comment stating that
trim_messages returns a Runnable when no messages are provided: the
two-mode entry point of trim_messages.  With a message sequence it trims it
directly; with configuration parameters only, it returns a runnable processor
closed over those parameters. -/
def trim_messages (msgs : Option (List Message))
    (counter : List Message → Nat) (maxBudget : Nat) (keepSystem : Bool)
    (startOn : List Role) :
    Sum (List Message → Except String (List Message))
      (Except String (List Message)) :=
  match msgs with
  | none => Sum.inl fun H => select counter maxBudget keepSystem startOn H
  | some H => Sum.inr (select counter maxBudget keepSystem startOn H)

/-- Claim C10: calling trim_messages with only configuration parameters and
no message sequence returns a runnable processor rather than failing, and
applying that processor to any history yields exactly the sequence that a
direct invocation of trim_messages on that history with the same parameters
returns. -/
theorem trim_messages_processor (c : List Message → Nat) (B : Nat)
    (ks : Bool) (so : List Role) :
    ∃ p, trim_messages none c B ks so = Sum.inl p ∧
      ∀ H, trim_messages (some H) c B ks so = Sum.inr (p H) :=
  ⟨_, rfl, fun _ => rfl⟩
